import Mathlib

/-
Verification of the multi-approvers review reconciliation system.

The definitions below are a shallow embedding of the TypeScript sources
of the repository:
  .github/actions/multi-approvers/src/index.ts   (entry point and main module:
      TeamMembers.contains, TeamMembers.approvedCount, validateApprovers,
      revalidateApprovers, main)
  .github/workflows/multi-approvers.js           (historical standalone copy)

Network calls are modelled as pure data already fetched: the membership
test becomes a predicate on logins, the review listing becomes a list of
review events, and the workflow-run listing becomes a list of run records.
-/

namespace MultiApprovers

/-- A submitted pull-request review event, as returned by the review
provider.  Mirrors the fields of the octokit review object used by the
code: user.login, state, and submitted_at.  The code converts the raw
submitted_at with "new Date(a.submitted_at || 0).getTime()", so a missing
timestamp is already encoded here as 0. -/
structure Review where
  reviewerLogin : String
  state : String
  submittedAt : Nat
deriving DecidableEq, Repr

/-- The constant APPROVED of index.ts (the review states that index.ts
compares against are the lowercase strings used throughout its tests). -/
def APPROVED : String := "approved"

/-- The constant COMMENTED of index.ts. -/
def COMMENTED : String := "commented"

/-- The constant MIN_APPROVED_COUNT of index.ts. -/
def MIN_APPROVED_COUNT : Nat := 2

/-- One step of the insertion sort modelling Array.prototype.sort with the
comparator (a, b) => new Date(a.submitted_at || 0).getTime() - new Date(b.submitted_at || 0).getTime().
The element r is placed before the first element whose timestamp is at
least r.submittedAt, so existing elements with the same timestamp stay in
front of later-inserted ones. -/
def insertReview (r : Review) : List Review → List Review
  | [] => [r]
  | x :: xs => if r.submittedAt ≤ x.submittedAt then r :: x :: xs else x :: insertReview r xs

/-- The chronological sort performed at the top of approvedCount.
Array.prototype.sort is stable (ECMAScript 2019 and later) and the
comparator orders ascending by submitted_at, ties keeping provider order;
this insertion sort computes exactly that stable ascending order:
sortReviews (r :: rs) inserts r in front of every element of the sorted
tail whose timestamp is greater than or equal to the timestamp of r, so
earlier events stay in front of later events with equal timestamps. -/
def sortReviews : List Review → List Review
  | [] => []
  | r :: rs => insertReview r (sortReviews rs)

/-- Lookup in the reviewer-to-state map (JavaScript Map.get: the map never
holds duplicate keys, and get returns the value stored for the key). -/
def mapGet (m : List (String × String)) (k : String) : Option String :=
  match m with
  | [] => none
  | (k1, v) :: rest => if k1 = k then some v else mapGet rest k

/-- Update in the reviewer-to-state map (JavaScript Map.set: replaces the
value of an existing key in place, otherwise appends the new key at the
end, preserving insertion order). -/
def mapSet (m : List (String × String)) (k : String) (v : String) : List (String × String) :=
  match m with
  | [] => [(k, v)]
  | (k1, v1) :: rest => if k1 = k then (k, v) :: rest else (k1, v1) :: mapSet rest k v

/-- The body of the reconciliation loop of TeamMembers.approvedCount
(index.ts lines 187-221), for a single review event r:
ignore the PR author, ignore non-members, record the state for a new
reviewer, always overwrite a non-approved recorded state, and overwrite an
approved recorded state only when the incoming state is not a comment.
The awaited membership query this.contains(reviewerLogin) is modelled by
the pure predicate isMember. -/
def processReview (isMember : String → Bool) (prLogin : String)
    (reviewStateByLogin : List (String × String)) (r : Review) : List (String × String) :=
  if r.reviewerLogin = prLogin then reviewStateByLogin
  else if isMember r.reviewerLogin = false then reviewStateByLogin
  else
    match mapGet reviewStateByLogin r.reviewerLogin with
    | none => mapSet reviewStateByLogin r.reviewerLogin r.state
    | some s =>
      if ¬ s = APPROVED then mapSet reviewStateByLogin r.reviewerLogin r.state
      else if s = APPROVED ∧ ¬ r.state = COMMENTED then mapSet reviewStateByLogin r.reviewerLogin r.state
      else reviewStateByLogin

/-- The reviewer-to-terminal-state map built by TeamMembers.approvedCount:
fold of the loop body over the chronologically sorted review events,
starting from the empty map. -/
def reviewStateMap (isMember : String → Bool) (prLogin : String)
    (submittedReviews : List Review) : List (String × String) :=
  (sortReviews submittedReviews).foldl (processReview isMember prLogin) []

/-- TeamMembers.approvedCount (index.ts lines 175-225): the number of map
entries whose terminal value is APPROVED. -/
def approvedCount (isMember : String → Bool) (submittedReviews : List Review)
    (prLogin : String) : Nat :=
  (((reviewStateMap isMember prLogin submittedReviews).map Prod.snd).filter
    (fun s => s == APPROVED)).length

/-- The contents of the caller-supplied review array after approvedCount
returns.  Array.prototype.sort sorts the receiver in place and
approvedCount invokes it directly on its submittedReviews argument
(index.ts lines 180-184), so after the call the provider-owned array holds
the chronologically sorted order, not the order the provider delivered. -/
def approvedCountArrayAfter (submittedReviews : List Review) : List Review :=
  sortReviews submittedReviews

/-- The constant TeamMembers.ALLOWED_ROLES of index.ts. -/
def ALLOWED_ROLES : List String := ["maintainer", "member"]

/-- The constant TeamMembers.ACTIVE of index.ts. -/
def ACTIVE : String := "active"

/-- The outcome of the membership query issued by TeamMembers.contains:
either a successful response carrying (role, state), or an error carrying
an HTTP status code (both the RequestError branch and the hasStatus branch
of the catch inspect only the numeric status). -/
def MembershipQuery : Type := Except Nat (String × String)

/-- TeamMembers.contains (index.ts lines 142-172): on success, membership
holds when the role is in ALLOWED_ROLES and the state is ACTIVE; a 404
error is treated as not-a-member; any other error is rethrown. -/
def TeamMembers.contains (query : Except Nat (String × String)) : Except Nat Bool :=
  match query with
  | Except.ok (role, state) => Except.ok (ALLOWED_ROLES.contains role && state == ACTIVE)
  | Except.error status => if status = 404 then Except.ok false else Except.error status

/-- The failure message built by validateApprovers (index.ts lines 269-273),
with the computed count substituted. -/
def failureText (approvedCnt : Nat) : String :=
  "This pull request has " ++ toString approvedCnt ++ " of " ++
    toString MIN_APPROVED_COUNT ++ " required internal approvals."

/-- validateApprovers (index.ts lines 229-275), reduced to its observable
decision: the argument passed to core.setFailed, or none when the check
passes.  When the pull-request author is a member the whole reconciliation
is skipped and no failure is emitted; otherwise the approval count is
compared against MIN_APPROVED_COUNT. -/
def validateApprovers (isMember : String → Bool) (submittedReviews : List Review)
    (prLogin : String) : Option String :=
  if isMember prLogin = true then none
  else
    if approvedCount isMember submittedReviews prLogin < MIN_APPROVED_COUNT then
      some (failureText (approvedCount isMember submittedReviews prLogin))
    else none

/-- A workflow run as consumed by revalidateApprovers: its id and the pull
request numbers attached to it ((r.pull_requests || []).map(pr => pr.number)). -/
structure WorkflowRun where
  id : Nat
  pullRequests : List Nat
deriving DecidableEq, Repr

/-- Models the call runs.sort((v) => v.id) in revalidateApprovers
(index.ts line 306).  The callback takes ONE argument, so as a comparator
it ignores its second argument and returns the id of the first: for the
natural-number run ids every comparison reports a nonnegative value, which
the engine reads as "already in order" (V8 detects the whole array as one
ascending run), so the sort returns the array in its original order.  In
particular this call does NOT order the runs by id. -/
def jsSortByIdCallback (runs : List WorkflowRun) : List WorkflowRun := runs

/-- revalidateApprovers (index.ts lines 283-316), reduced to its observable
effect: the id of the run passed to reRunWorkflow, or none when no listed
failing run is attached to the pull request.  The provider-side filters
(workflow id, branch, event "pull_request", status "failure") are already
reflected in the runs argument, exactly as the listWorkflowRuns response
is in the code. -/
def revalidateApprovers (runs : List WorkflowRun) (prNumber : Nat) : Option Nat :=
  let failedRuns := jsSortByIdCallback (runs.filter (fun r => r.pullRequests.contains prNumber))
  match failedRuns with
  | [] => none
  | r :: _ => some r.id

/-- The triggering event kinds accepted by validateEvent (SUPPORTED_EVENTS). -/
inductive EventName where
  | pullRequest
  | pullRequestReview
deriving DecidableEq, Repr

/-- The observable outcome of one invocation of main: the argument of the
core.setFailed call made by validateApprovers (none when the check
passes), whether the re-trigger block ran, and the run id re-run by
revalidateApprovers (none when the block did not run or found no
qualifying failed run). -/
structure MainResult where
  failureMessage : Option String
  retriggerInvoked : Bool
  rerunRequest : Option Nat
deriving DecidableEq, Repr

/-- main (index.ts lines 355-409), happy path (no provider error): it
always awaits validateApprovers, and afterwards, whenever the triggering
event is pull_request_review, unconditionally resolves the workflow id and
awaits revalidateApprovers.  core.setFailed does not throw, so an
under-threshold count does not stop the flow before the re-trigger. -/
def main (eventName : EventName) (isMember : String → Bool)
    (submittedReviews : List Review) (prLogin : String)
    (runs : List WorkflowRun) (prNumber : Nat) : MainResult :=
  let failureMessage := validateApprovers isMember submittedReviews prLogin
  if eventName = EventName.pullRequestReview then
    { failureMessage := failureMessage
      retriggerInvoked := true
      rerunRequest := revalidateApprovers runs prNumber }
  else
    { failureMessage := failureMessage
      retriggerInvoked := false
      rerunRequest := none }

/-- The keys of the reviewer-to-state map, in insertion order. -/
def mapKeys (m : List (String × String)) : List String := m.map Prod.fst

/-- Chronological comparison of review events, the order established by
the comparator passed to Array.prototype.sort in approvedCount. -/
def chronLE (x y : Review) : Prop := x.submittedAt ≤ y.submittedAt

/-- Membership predicate making every login a member, used in concrete
scenarios. -/
def memberAll : String → Bool := fun _ => true

/-- Event history: APPROVED at time 1 then COMMENTED at time 2, one
reviewer. -/
def historyApprovedCommented : List Review :=
  [⟨"reviewer-1", "approved", 1⟩, ⟨"reviewer-1", "commented", 2⟩]

/-- Event history: APPROVED at time 1 then CHANGES_REQUESTED at time 2,
one reviewer. -/
def historyApprovedChanges : List Review :=
  [⟨"reviewer-1", "approved", 1⟩, ⟨"reviewer-1", "changes_requested", 2⟩]

/-- Event history: APPROVED, then CHANGES_REQUESTED, then APPROVED again,
one reviewer. -/
def historyApprovedChangesApproved : List Review :=
  [⟨"reviewer-1", "approved", 1⟩, ⟨"reviewer-1", "changes_requested", 2⟩,
   ⟨"reviewer-1", "approved", 3⟩]

/-! Basic facts about the reviewer-to-state map. -/

theorem mapGet_mapSet_self (m : List (String × String)) (k v : String) :
    mapGet (mapSet m k v) k = some v := by
  induction m with
  | nil => simp [mapGet, mapSet]
  | cons p rest ih =>
    obtain ⟨k1, v1⟩ := p
    by_cases h : k1 = k
    · simp [mapSet, h, mapGet]
    · simp [mapSet, h, mapGet, ih]

theorem mapGet_mapSet_ne (m : List (String × String)) {k k2 : String} (v : String)
    (h : k2 ≠ k) : mapGet (mapSet m k v) k2 = mapGet m k2 := by
  induction m with
  | nil => simp [mapGet, mapSet, Ne.symm h]
  | cons p rest ih =>
    obtain ⟨k1, v1⟩ := p
    by_cases h1 : k1 = k
    · subst h1
      simp [mapSet, mapGet, Ne.symm h]
    · simp only [mapSet, if_neg h1, mapGet]
      by_cases h2 : k1 = k2
      · simp [h2]
      · simp [h2, ih]

theorem mapKeys_mapSet_of_mem {m : List (String × String)} {k : String} (v : String)
    (h : k ∈ mapKeys m) : mapKeys (mapSet m k v) = mapKeys m := by
  induction m with
  | nil => simp [mapKeys] at h
  | cons p rest ih =>
    obtain ⟨k1, v1⟩ := p
    by_cases h1 : k1 = k
    · simp [mapSet, h1, mapKeys]
    · have h2 : k ∈ mapKeys rest := by
        simp only [mapKeys, List.map_cons, List.mem_cons] at h
        rcases h with h | h
        · exact absurd h.symm h1
        · exact h
      have h3 := ih h2
      simp only [mapKeys, List.map_cons] at h3 ⊢
      simp only [mapSet, if_neg h1, List.map_cons, h3]

theorem mapKeys_mapSet_of_not_mem {m : List (String × String)} {k : String} (v : String)
    (h : k ∉ mapKeys m) : mapKeys (mapSet m k v) = mapKeys m ++ [k] := by
  induction m with
  | nil => simp [mapKeys, mapSet]
  | cons p rest ih =>
    obtain ⟨k1, v1⟩ := p
    have h1 : k1 ≠ k := by
      intro hh
      exact h (by simp [mapKeys, hh])
    have h2 : k ∉ mapKeys rest := by
      intro hh
      refine h ?_
      simp only [mapKeys, List.map_cons, List.mem_cons]
      simp only [mapKeys] at hh
      exact Or.inr hh
    have h3 := ih h2
    simp only [mapKeys, List.map_cons] at h3 ⊢
    simp only [mapSet, if_neg h1, List.map_cons, h3, List.cons_append]

theorem mapGet_eq_none_iff (m : List (String × String)) (k : String) :
    mapGet m k = none ↔ k ∉ mapKeys m := by
  induction m with
  | nil => simp [mapGet, mapKeys]
  | cons p rest ih =>
    obtain ⟨k1, v1⟩ := p
    by_cases h1 : k1 = k
    · simp [mapGet, h1, mapKeys]
    · simp only [mapGet, if_neg h1, mapKeys, List.map_cons, List.mem_cons]
      rw [ih]
      simp only [mapKeys]
      constructor
      · intro hnone
        intro hor
        rcases hor with hor | hor
        · exact h1 hor.symm
        · exact hnone hor
      · intro hboth hmem
        exact hboth (Or.inr hmem)

theorem mem_mapKeys_of_mapGet {m : List (String × String)} {k : String} {v : String}
    (h : mapGet m k = some v) : k ∈ mapKeys m := by
  by_contra hk
  rw [← mapGet_eq_none_iff] at hk
  rw [h] at hk
  exact Option.noConfusion hk

theorem mem_iff_mapGet {m : List (String × String)} (hm : (mapKeys m).Nodup)
    (k v : String) : (k, v) ∈ m ↔ mapGet m k = some v := by
  induction m with
  | nil => simp [mapGet]
  | cons p rest ih =>
    obtain ⟨k1, v1⟩ := p
    have hnd : (mapKeys rest).Nodup := (List.nodup_cons.mp hm).2
    have hnotin : k1 ∉ mapKeys rest := (List.nodup_cons.mp hm).1
    by_cases h1 : k1 = k
    · subst h1
      simp only [mapGet, if_pos rfl, List.mem_cons]
      constructor
      · rintro (h | h)
        · simp [Prod.ext_iff] at h
          simp [h]
        · exact absurd (by simpa [mapKeys] using List.mem_map_of_mem Prod.fst h) hnotin
      · intro h
        left
        simp at h
        simp [h]
    · simp only [mapGet, if_neg h1, List.mem_cons]
      rw [← ih hnd]
      constructor
      · rintro (h | h)
        · exact absurd (congrArg Prod.fst h).symm h1
        · exact h
      · exact Or.inr

/-! Facts about a single reconciliation step. -/

theorem processReview_self {isMember : String → Bool} {prLogin : String}
    (m : List (String × String)) {r : Review} (h : r.reviewerLogin = prLogin) :
    processReview isMember prLogin m r = m := by
  simp [processReview, h]

theorem processReview_nonmember {isMember : String → Bool} {prLogin : String}
    (m : List (String × String)) {r : Review} (h : isMember r.reviewerLogin = false) :
    processReview isMember prLogin m r = m := by
  by_cases h1 : r.reviewerLogin = prLogin <;> simp [processReview, h1, h]

theorem processReview_update {isMember : String → Bool} {prLogin : String}
    {m : List (String × String)} {r : Review} {s : String}
    (hself : ¬ r.reviewerLogin = prLogin)
    (hmem : isMember r.reviewerLogin = true)
    (hprev : mapGet m r.reviewerLogin = some s) :
    processReview isMember prLogin m r =
      (if s = APPROVED ∧ r.state = COMMENTED then m
       else mapSet m r.reviewerLogin r.state) := by
  have hm2 : ¬ isMember r.reviewerLogin = false := by simp [hmem]
  simp only [processReview, if_neg hself, if_neg hm2, hprev]
  by_cases hA : s = APPROVED
  · by_cases hC : r.state = COMMENTED
    · simp [hA, hC]
    · simp [hA, hC]
  · simp [hA]

/-! Claims C1, C2, C3, C4, C8, C9. -/

/-- C1.  For a reviewer other than the author who is a member, the
reconciliation fold applies the asymmetric overwrite rule to a recorded
state: a COMMENTED event arriving after a recorded APPROVED state does not
overwrite it, while any other later event (including CHANGES_REQUESTED or
a fresh APPROVED) does, and any later event overwrites a recorded
non-APPROVED state.  Consequently the single-reviewer histories
APPROVED then COMMENTED, APPROVED then CHANGES_REQUESTED, and
APPROVED then CHANGES_REQUESTED then APPROVED contribute 1, 0 and 1
approvals respectively. -/
theorem C1_terminal_state_rule (isMember : String → Bool) (prLogin : String)
    (m : List (String × String)) (r : Review) (s : String)
    (hself : ¬ r.reviewerLogin = prLogin)
    (hmem : isMember r.reviewerLogin = true)
    (hprev : mapGet m r.reviewerLogin = some s) :
    (processReview isMember prLogin m r =
      (if s = APPROVED ∧ r.state = COMMENTED then m
       else mapSet m r.reviewerLogin r.state)) ∧
    approvedCount memberAll historyApprovedCommented "author" = 1 ∧
    approvedCount memberAll historyApprovedChanges "author" = 0 ∧
    approvedCount memberAll historyApprovedChangesApproved "author" = 1 :=
  ⟨processReview_update hself hmem hprev, by decide, by decide, by decide⟩

/-- Witness for C1 at a concrete instance: reviewer-1 is not the author,
is a member, and has a recorded approved state. -/
theorem C1_terminal_state_rule_witness :
    (¬ ("reviewer-1" : String) = "author") ∧
    memberAll "reviewer-1" = true ∧
    mapGet [("reviewer-1", "approved")] "reviewer-1" = some "approved" ∧
    approvedCount memberAll historyApprovedCommented "author" = 1 :=
  ⟨by decide, rfl, by decide,
    (C1_terminal_state_rule memberAll "author" [("reviewer-1", "approved")]
      ⟨"reviewer-1", "commented", 2⟩ "approved" (by decide) rfl (by decide)).2.1⟩

/-- C2 counterexample.  The claim asserts the coordinator always sorts the
qualifying failed runs ascending by id and re-runs the smallest id.  With
the runs listed in the order id 827 then id 12, both attached to pull
request 5, revalidateApprovers re-runs 827, not the smallest id 12: the
one-argument callback passed to sort is not a comparator and the listing
order is preserved. -/
theorem C2_counterexample :
    revalidateApprovers [⟨827, [5]⟩, ⟨12, [5]⟩] 5 = some 827 ∧ (827 : Nat) ≠ 12 := by
  decide

/-- C2 amended.  For the listing order with ids 12, 827, 21 all naming
pull request 5, revalidateApprovers re-runs id 12; in general it re-runs
the FIRST run in the provider listing order whose pull-request list
contains the target number (equivalently, List.find?), with no reordering
by id. -/
theorem C2_first_qualifying_run :
    revalidateApprovers [⟨12, [5]⟩, ⟨827, [5]⟩, ⟨21, [5]⟩] 5 = some 12 ∧
    ∀ (runs : List WorkflowRun) (prNumber : Nat),
      revalidateApprovers runs prNumber =
        (runs.find? (fun r => r.pullRequests.contains prNumber)).map WorkflowRun.id := by
  refine ⟨by decide, ?_⟩
  intro runs prNumber
  induction runs with
  | nil => rfl
  | cons r rest ih =>
    by_cases h : prNumber ∈ r.pullRequests
    · simp [revalidateApprovers, jsSortByIdCallback, List.filter_cons, List.find?_cons, h]
    · simpa [revalidateApprovers, jsSortByIdCallback, List.filter_cons, List.find?_cons, h]
        using ih

/-- C3 counterexample.  The claim asserts that a member-authored pull
request ends without invoking the re-trigger coordinator even on a
pull_request_review event.  With the author a member and a qualifying
failed run listed, main still runs the re-trigger block and issues a
re-run: the membership short-circuit lives inside validateApprovers while
the re-trigger is gated only on the event name. -/
theorem C3_counterexample :
    memberAll "author" = true ∧
    (main EventName.pullRequestReview memberAll [] "author" [⟨12, [1]⟩] 1).retriggerInvoked
      = true ∧
    (main EventName.pullRequestReview memberAll [] "author" [⟨12, [1]⟩] 1).rerunRequest
      = some 12 := by
  decide

/-- C3 amended.  When the pull-request author is a member, the orchestrator
emits success (no failure message) and skips the reconciliation, but the
re-trigger coordinator still runs exactly when the triggering event is
pull_request_review. -/
theorem C3_member_author_still_retriggers (eventName : EventName)
    (isMember : String → Bool) (submittedReviews : List Review) (prLogin : String)
    (runs : List WorkflowRun) (prNumber : Nat)
    (hmem : isMember prLogin = true) :
    (main eventName isMember submittedReviews prLogin runs prNumber).failureMessage
      = none ∧
    ((main eventName isMember submittedReviews prLogin runs prNumber).retriggerInvoked
      = true ↔ eventName = EventName.pullRequestReview) ∧
    (main eventName isMember submittedReviews prLogin runs prNumber).rerunRequest
      = (if eventName = EventName.pullRequestReview
         then revalidateApprovers runs prNumber else none) := by
  unfold main validateApprovers
  cases eventName <;> simp [hmem]

/-- Witness for C3 amended: a concrete member author on a pull_request
event. -/
theorem C3_member_author_still_retriggers_witness :
    memberAll "author" = true ∧
    (main EventName.pullRequest memberAll [] "author" [] 1).failureMessage = none :=
  ⟨rfl, (C3_member_author_still_retriggers EventName.pullRequest memberAll [] "author"
    [] 1 rfl).1⟩

/-- C4.  On a pull_request_review event with a non-member author (the
reconciliation path), the re-trigger block always executes and issues
exactly the revalidateApprovers request, regardless of whether the
approval decision passed: an under-threshold count only sets the failure
message, it does not stop the invocation before the coordinator runs. -/
theorem C4_retrigger_unconditional (isMember : String → Bool)
    (submittedReviews : List Review) (prLogin : String)
    (runs : List WorkflowRun) (prNumber : Nat)
    (hext : isMember prLogin = false) :
    (main EventName.pullRequestReview isMember submittedReviews prLogin runs
      prNumber).retriggerInvoked = true ∧
    (main EventName.pullRequestReview isMember submittedReviews prLogin runs
      prNumber).rerunRequest = revalidateApprovers runs prNumber ∧
    (main EventName.pullRequestReview isMember submittedReviews prLogin runs
      prNumber).failureMessage =
      (if approvedCount isMember submittedReviews prLogin < MIN_APPROVED_COUNT
       then some (failureText (approvedCount isMember submittedReviews prLogin))
       else none) := by
  unfold main validateApprovers
  simp [hext]

/-- Witness for C4: a failing decision (no reviews, external author) still
re-triggers. -/
theorem C4_retrigger_unconditional_witness :
    (fun _ : String => false) "eve" = false ∧
    (main EventName.pullRequestReview (fun _ => false) [] "eve" [⟨12, [1]⟩] 1).retriggerInvoked
      = true ∧
    (main EventName.pullRequestReview (fun _ => false) [] "eve" [⟨12, [1]⟩] 1).failureMessage
      = some "This pull request has 0 of 2 required internal approvals." :=
  ⟨rfl,
   (C4_retrigger_unconditional (fun _ => false) [] "eve" [⟨12, [1]⟩] 1 rfl).1,
   by decide⟩

/-- C8.  The team-backed membership test returns true exactly when the
query reports role maintainer or member together with state active; a 404
response yields false (not a member) instead of an error; any other error
status propagates unchanged. -/
theorem C8_contains_rule :
    (∀ role state : String,
      TeamMembers.contains (Except.ok (role, state)) = Except.ok true ↔
        ((role = "maintainer" ∨ role = "member") ∧ state = "active")) ∧
    TeamMembers.contains (Except.error 404) = Except.ok false ∧
    ∀ status : Nat, status ≠ 404 →
      TeamMembers.contains (Except.error status) = Except.error status := by
  refine ⟨?_, rfl, ?_⟩
  · intro role state
    simp [TeamMembers.contains, ALLOWED_ROLES, ACTIVE, List.contains]
  · intro status h
    simp [TeamMembers.contains, h]

/-- Witness for C8 at a non-404 error status. -/
theorem C8_contains_rule_witness :
    (500 : Nat) ≠ 404 ∧
    TeamMembers.contains (Except.error 500) = Except.error 500 :=
  ⟨by decide, C8_contains_rule.2.2 500 (by decide)⟩

/-- C9.  With a non-member author, an under-threshold count fails with
exactly the literal message carrying the count and the required constant,
and an at-or-above-threshold count passes with no message; in particular
exactly MIN_APPROVED_COUNT - 1 approvals fails with the literal
"This pull request has 1 of 2 required internal approvals." and exactly
MIN_APPROVED_COUNT approvals passes. -/
theorem C9_threshold_message (isMember : String → Bool)
    (submittedReviews : List Review) (prLogin : String)
    (hext : isMember prLogin = false) :
    (approvedCount isMember submittedReviews prLogin < MIN_APPROVED_COUNT →
      validateApprovers isMember submittedReviews prLogin =
        some (failureText (approvedCount isMember submittedReviews prLogin))) ∧
    (MIN_APPROVED_COUNT ≤ approvedCount isMember submittedReviews prLogin →
      validateApprovers isMember submittedReviews prLogin = none) ∧
    failureText 1 = "This pull request has 1 of 2 required internal approvals." ∧
    (approvedCount isMember submittedReviews prLogin = MIN_APPROVED_COUNT - 1 →
      validateApprovers isMember submittedReviews prLogin =
        some "This pull request has 1 of 2 required internal approvals.") ∧
    (approvedCount isMember submittedReviews prLogin = MIN_APPROVED_COUNT →
      validateApprovers isMember submittedReviews prLogin = none) := by
  have hnm : ¬ isMember prLogin = true := by simp [hext]
  refine ⟨?_, ?_, by decide, ?_, ?_⟩
  · intro hlt
    simp [validateApprovers, if_neg hnm, hlt]
  · intro hge
    simp [validateApprovers, if_neg hnm, Nat.not_lt.mpr hge]
  · intro heq
    have hlt : approvedCount isMember submittedReviews prLogin < MIN_APPROVED_COUNT := by
      rw [heq]; decide
    simp [validateApprovers, if_neg hnm, hlt, heq]
    decide
  · intro heq
    simp [validateApprovers, if_neg hnm, heq]

/-- Witness for C9: one member approval out of the required two fails with
the literal message. -/
theorem C9_threshold_message_witness :
    (fun l : String => l == "alice") "eve" = false ∧
    approvedCount (fun l => l == "alice") [⟨"alice", "approved", 1⟩] "eve" = 1 ∧
    validateApprovers (fun l => l == "alice") [⟨"alice", "approved", 1⟩] "eve" =
      some "This pull request has 1 of 2 required internal approvals." :=
  ⟨by decide, by decide,
    (C9_threshold_message (fun l => l == "alice") [⟨"alice", "approved", 1⟩] "eve"
      (by decide)).2.2.2.1 (by decide)⟩

/-! Facts about the stable chronological sort. -/

theorem insertReview_perm (r : Review) (L : List Review) :
    List.Perm (insertReview r L) (r :: L) := by
  induction L with
  | nil => simp [insertReview]
  | cons x xs ih =>
    by_cases h : r.submittedAt ≤ x.submittedAt
    · simp [insertReview, h]
    · rw [insertReview, if_neg h]
      exact (ih.cons x).trans (List.Perm.swap r x xs)

theorem sortReviews_perm (L : List Review) : List.Perm (sortReviews L) L := by
  induction L with
  | nil => simp [sortReviews]
  | cons r rs ih =>
    exact (insertReview_perm r (sortReviews rs)).trans (ih.cons r)

theorem insertReview_pairwise {r : Review} {L : List Review}
    (h : List.Pairwise chronLE L) : List.Pairwise chronLE (insertReview r L) := by
  induction L with
  | nil => simp [insertReview, List.pairwise_singleton]
  | cons x xs ih =>
    have h1 : ∀ y ∈ xs, chronLE x y := (List.pairwise_cons.mp h).1
    have h2 : List.Pairwise chronLE xs := (List.pairwise_cons.mp h).2
    by_cases hc : r.submittedAt ≤ x.submittedAt
    · rw [insertReview, if_pos hc]
      refine List.Pairwise.cons ?_ h
      intro y hy
      rcases List.mem_cons.mp hy with hy | hy
      · subst hy; exact hc
      · exact Nat.le_trans hc (h1 y hy)
    · rw [insertReview, if_neg hc]
      refine List.Pairwise.cons ?_ (ih h2)
      intro y hy
      have hy2 : y ∈ r :: xs := (insertReview_perm r xs).mem_iff.mp hy
      rcases List.mem_cons.mp hy2 with hy2 | hy2
      · subst hy2; exact Nat.le_of_not_le hc
      · exact h1 y hy2

theorem sortReviews_pairwise (L : List Review) :
    List.Pairwise chronLE (sortReviews L) := by
  induction L with
  | nil => simp [sortReviews]
  | cons r rs ih => exact insertReview_pairwise ih

theorem insertReview_all_le {r : Review} {L : List Review}
    (h : ∀ y ∈ L, r.submittedAt ≤ y.submittedAt) : insertReview r L = r :: L := by
  cases L with
  | nil => rfl
  | cons x xs => rw [insertReview, if_pos (h x (List.mem_cons_self x xs))]

theorem filter_insertReview_pos {p : Review → Bool} {r : Review} {L : List Review}
    (hp : p r = true) (hL : List.Pairwise chronLE L) :
    (insertReview r L).filter p = insertReview r (L.filter p) := by
  induction L with
  | nil => simp [insertReview, List.filter_cons, hp]
  | cons x xs ih =>
    have h1 : ∀ y ∈ xs, chronLE x y := (List.pairwise_cons.mp hL).1
    have h2 : List.Pairwise chronLE xs := (List.pairwise_cons.mp hL).2
    by_cases hc : r.submittedAt ≤ x.submittedAt
    · rw [insertReview, if_pos hc]
      by_cases hx : p x = true
      · simp only [List.filter_cons, hp, hx, if_true]
        rw [insertReview, if_pos hc]
      · have hall : ∀ y ∈ xs.filter p, r.submittedAt ≤ y.submittedAt := by
          intro y hy
          exact Nat.le_trans hc (h1 y (List.mem_of_mem_filter hy))
        simp only [List.filter_cons, hp, hx, if_true, Bool.false_eq_true, if_false]
        rw [insertReview_all_le hall]
    · rw [insertReview, if_neg hc]
      by_cases hx : p x = true
      · simp only [List.filter_cons, hx, if_true]
        rw [ih h2, insertReview, if_neg hc]
      · simp only [List.filter_cons, hx, Bool.false_eq_true, if_false]
        exact ih h2

theorem filter_insertReview_neg {p : Review → Bool} {r : Review} (L : List Review)
    (hp : p r = false) : (insertReview r L).filter p = L.filter p := by
  induction L with
  | nil => simp [insertReview, List.filter_cons, hp]
  | cons x xs ih =>
    by_cases hc : r.submittedAt ≤ x.submittedAt
    · rw [insertReview, if_pos hc]
      simp [List.filter_cons, hp]
    · rw [insertReview, if_neg hc]
      simp only [List.filter_cons, ih]

theorem sortReviews_filter (p : Review → Bool) (L : List Review) :
    sortReviews (L.filter p) = (sortReviews L).filter p := by
  induction L with
  | nil => rfl
  | cons r rs ih =>
    by_cases hp : p r = true
    · simp only [List.filter_cons, hp, if_true, sortReviews, ih]
      rw [filter_insertReview_pos hp (sortReviews_pairwise rs)]
    · have hp2 : p r = false := by simpa using hp
      simp only [List.filter_cons, hp2, Bool.false_eq_true, if_false, sortReviews, ih]
      rw [filter_insertReview_neg _ hp2]

theorem foldl_filter_of_skip {M : Type} {f : M → Review → M} {p : Review → Bool}
    (hf : ∀ x, p x = false → ∀ m, f m x = m) :
    ∀ (L : List Review) (m : M), (L.filter p).foldl f m = L.foldl f m := by
  intro L
  induction L with
  | nil => intro m; rfl
  | cons x xs ih =>
    intro m
    by_cases hx : p x = true
    · simp only [List.filter_cons, hx, if_true, List.foldl_cons]
      exact ih (f m x)
    · have hx2 : p x = false := by simpa using hx
      simp only [List.filter_cons, hx2, Bool.false_eq_true, if_false, List.foldl_cons,
        hf x hx2 m]
      exact ih m

/-! Claims C5 and C10. -/

/-- C5.  Review events whose reviewer login equals the pull-request author
never contribute to approvedCount, for every membership predicate, every
review sequence, and every state: dropping every event of the author from
the input leaves the count unchanged (step (a) of the loop skips such
events unconditionally, before the membership test). -/
theorem C5_author_reviews_never_count (isMember : String → Bool)
    (submittedReviews : List Review) (prLogin : String) :
    approvedCount isMember submittedReviews prLogin =
      approvedCount isMember
        (submittedReviews.filter (fun r => !(r.reviewerLogin == prLogin))) prLogin := by
  unfold approvedCount reviewStateMap
  rw [sortReviews_filter]
  rw [foldl_filter_of_skip]
  intro x hx m
  have hx2 : x.reviewerLogin = prLogin := by
    simpa using hx
  exact processReview_self m hx2

/-- C10 counterexample.  approvedCount sorts its argument array in place,
so a caller-supplied list that is not already in chronological order is
reordered by the call: after the call the provider-owned array differs
from the order the provider delivered. -/
theorem C10_counterexample :
    approvedCountArrayAfter [⟨"a", "approved", 2⟩, ⟨"b", "approved", 1⟩] ≠
      [⟨"a", "approved", 2⟩, ⟨"b", "approved", 1⟩] := by
  decide

/-- C10 amended.  The in-place sort neither adds nor removes events: after
the call the caller-supplied array holds a permutation of the original
elements, arranged in chronological order of submittedAt.  It is left
verbatim unchanged only when the input was already chronologically
sorted. -/
theorem C10_inplace_sort_permutes (submittedReviews : List Review) :
    List.Perm (approvedCountArrayAfter submittedReviews) submittedReviews ∧
    List.Pairwise chronLE (approvedCountArrayAfter submittedReviews) :=
  ⟨sortReviews_perm submittedReviews, sortReviews_pairwise submittedReviews⟩

/-! Keys of the reviewer-to-state map built by the fold. -/

theorem processReview_keys_cases (isMember : String → Bool) (prLogin : String)
    (m : List (String × String)) (r : Review) :
    mapKeys (processReview isMember prLogin m r) = mapKeys m ∨
    (mapKeys (processReview isMember prLogin m r) = mapKeys m ++ [r.reviewerLogin] ∧
     isMember r.reviewerLogin = true ∧ ¬ r.reviewerLogin = prLogin ∧
     r.reviewerLogin ∉ mapKeys m) := by
  by_cases h1 : r.reviewerLogin = prLogin
  · left; rw [processReview_self m h1]
  · by_cases h2 : isMember r.reviewerLogin = true
    · cases hg : mapGet m r.reviewerLogin with
      | none =>
        right
        have hnot : r.reviewerLogin ∉ mapKeys m := (mapGet_eq_none_iff m _).mp hg
        refine ⟨?_, h2, h1, hnot⟩
        have hm2 : ¬ isMember r.reviewerLogin = false := by simp [h2]
        simp only [processReview, if_neg h1, if_neg hm2, hg]
        exact mapKeys_mapSet_of_not_mem _ hnot
      | some s =>
        left
        have hmem := mem_mapKeys_of_mapGet hg
        rw [processReview_update h1 h2 hg]
        by_cases hif : s = APPROVED ∧ r.state = COMMENTED
        · rw [if_pos hif]
        · rw [if_neg hif]
          exact mapKeys_mapSet_of_mem _ hmem
    · left
      have h2f : isMember r.reviewerLogin = false := by simpa using h2
      rw [processReview_nonmember m h2f]

theorem foldl_processReview_keys (isMember : String → Bool) (prLogin : String) :
    ∀ (L : List Review) (m : List (String × String)), (mapKeys m).Nodup →
      (mapKeys (L.foldl (processReview isMember prLogin) m)).Nodup ∧
      ∀ k ∈ mapKeys (L.foldl (processReview isMember prLogin) m),
        k ∈ mapKeys m ∨
        (k ∈ L.map Review.reviewerLogin ∧ isMember k = true ∧ ¬ k = prLogin) := by
  intro L
  induction L with
  | nil =>
    intro m hm
    exact ⟨hm, fun k hk => Or.inl hk⟩
  | cons r rest ih =>
    intro m hm
    rw [List.foldl_cons]
    rcases processReview_keys_cases isMember prLogin m r with hcase | ⟨heq, hmem, hne, hnotin⟩
    · have hnd : (mapKeys (processReview isMember prLogin m r)).Nodup := by
        rw [hcase]; exact hm
      obtain ⟨h1, h2⟩ := ih _ hnd
      refine ⟨h1, ?_⟩
      intro k hk
      rcases h2 k hk with hk1 | hk2
      · rw [hcase] at hk1
        exact Or.inl hk1
      · refine Or.inr ⟨?_, hk2.2.1, hk2.2.2⟩
        simp only [List.map_cons, List.mem_cons]
        exact Or.inr hk2.1
    · have hnd : (mapKeys (processReview isMember prLogin m r)).Nodup := by
        rw [heq]
        refine List.Nodup.append hm (List.nodup_singleton _) ?_
        intro a ha hb
        rw [List.mem_singleton] at hb
        subst hb
        exact hnotin ha
      obtain ⟨h1, h2⟩ := ih _ hnd
      refine ⟨h1, ?_⟩
      intro k hk
      rcases h2 k hk with hk1 | hk2
      · rw [heq] at hk1
        rcases List.mem_append.mp hk1 with hk1 | hk1
        · exact Or.inl hk1
        · rw [List.mem_singleton] at hk1
          subst hk1
          refine Or.inr ⟨?_, hmem, hne⟩
          simp
      · refine Or.inr ⟨?_, hk2.2.1, hk2.2.2⟩
        simp only [List.map_cons, List.mem_cons]
        exact Or.inr hk2.1

/-- C6.  The approval count is at least 0 and at most the number of
distinct reviewer logins appearing in the input that are members and
differ from the author: every entry of the final reviewer-to-state map is
keyed by such a login, the keys are pairwise distinct, and the count only
counts entries whose value is APPROVED. -/
theorem C6_count_bounded (isMember : String → Bool)
    (submittedReviews : List Review) (prLogin : String) :
    0 ≤ approvedCount isMember submittedReviews prLogin ∧
    approvedCount isMember submittedReviews prLogin ≤
      (((submittedReviews.map Review.reviewerLogin).dedup).filter
        (fun l => isMember l && !(l == prLogin))).length := by
  refine ⟨Nat.zero_le _, ?_⟩
  unfold approvedCount
  have hrw : reviewStateMap isMember prLogin submittedReviews =
      (sortReviews submittedReviews).foldl (processReview isMember prLogin) [] := rfl
  obtain ⟨hnd, hsub⟩ := foldl_processReview_keys isMember prLogin
    (sortReviews submittedReviews) [] (by simp [mapKeys])
  rw [← hrw] at hnd hsub
  have h1 : (((reviewStateMap isMember prLogin submittedReviews).map Prod.snd).filter
      (fun s => s == APPROVED)).length ≤
      (mapKeys (reviewStateMap isMember prLogin submittedReviews)).length := by
    calc (((reviewStateMap isMember prLogin submittedReviews).map Prod.snd).filter
        (fun s => s == APPROVED)).length
        ≤ ((reviewStateMap isMember prLogin submittedReviews).map Prod.snd).length :=
          List.length_filter_le _ _
      _ = (reviewStateMap isMember prLogin submittedReviews).length :=
          List.length_map _ _
      _ = (mapKeys (reviewStateMap isMember prLogin submittedReviews)).length :=
          (List.length_map _ _).symm
  refine Nat.le_trans h1 ?_
  have hsubset : mapKeys (reviewStateMap isMember prLogin submittedReviews) ⊆
      ((submittedReviews.map Review.reviewerLogin).dedup).filter
        (fun l => isMember l && !(l == prLogin)) := by
    intro k hk
    rcases hsub k hk with hk1 | ⟨hk2, hk3, hk4⟩
    · simp [mapKeys] at hk1
    · have hk5 : k ∈ submittedReviews.map Review.reviewerLogin :=
        ((sortReviews_perm submittedReviews).map Review.reviewerLogin).mem_iff.mp hk2
      refine List.mem_filter.mpr ⟨List.mem_dedup.mpr hk5, ?_⟩
      simp [hk3, hk4]
  exact (List.subperm_of_subset hnd hsubset).length_le

/-! Pointwise behaviour of the reconciliation step, used for claim C7. -/

theorem mapGet_processReview_ne {isMember : String → Bool} {prLogin : String}
    (m : List (String × String)) {r : Review} {k : String}
    (h : ¬ k = r.reviewerLogin) :
    mapGet (processReview isMember prLogin m r) k = mapGet m k := by
  by_cases h1 : r.reviewerLogin = prLogin
  · rw [processReview_self m h1]
  · by_cases h2 : isMember r.reviewerLogin = true
    · have hm2 : ¬ isMember r.reviewerLogin = false := by simp [h2]
      cases hg : mapGet m r.reviewerLogin with
      | none =>
        simp only [processReview, if_neg h1, if_neg hm2, hg]
        exact mapGet_mapSet_ne m _ h
      | some s =>
        rw [processReview_update h1 h2 hg]
        by_cases hif : s = APPROVED ∧ r.state = COMMENTED
        · rw [if_pos hif]
        · rw [if_neg hif]
          exact mapGet_mapSet_ne m _ h
    · have h2f : isMember r.reviewerLogin = false := by simpa using h2
      rw [processReview_nonmember m h2f]

theorem mapGet_processReview_self_congr {isMember : String → Bool} {prLogin : String}
    {m1 m2 : List (String × String)} {r : Review}
    (h : mapGet m1 r.reviewerLogin = mapGet m2 r.reviewerLogin) :
    mapGet (processReview isMember prLogin m1 r) r.reviewerLogin =
      mapGet (processReview isMember prLogin m2 r) r.reviewerLogin := by
  by_cases h1 : r.reviewerLogin = prLogin
  · rw [processReview_self m1 h1, processReview_self m2 h1]
    exact h
  · by_cases h2 : isMember r.reviewerLogin = true
    · have hm2 : ¬ isMember r.reviewerLogin = false := by simp [h2]
      cases hg : mapGet m1 r.reviewerLogin with
      | none =>
        have hg2 : mapGet m2 r.reviewerLogin = none := by rw [← h]; exact hg
        simp only [processReview, if_neg h1, if_neg hm2, hg, hg2]
        rw [mapGet_mapSet_self, mapGet_mapSet_self]
      | some s =>
        have hg2 : mapGet m2 r.reviewerLogin = some s := by rw [← h]; exact hg
        rw [processReview_update h1 h2 hg, processReview_update h1 h2 hg2]
        by_cases hif : s = APPROVED ∧ r.state = COMMENTED
        · rw [if_pos hif, if_pos hif, hg, hg2]
        · rw [if_neg hif, if_neg hif, mapGet_mapSet_self, mapGet_mapSet_self]
    · have h2f : isMember r.reviewerLogin = false := by simpa using h2
      rw [processReview_nonmember m1 h2f, processReview_nonmember m2 h2f]
      exact h

theorem mapGet_processReview_congr {isMember : String → Bool} {prLogin : String}
    {m1 m2 : List (String × String)} (h : ∀ k, mapGet m1 k = mapGet m2 k)
    (r : Review) (k : String) :
    mapGet (processReview isMember prLogin m1 r) k =
      mapGet (processReview isMember prLogin m2 r) k := by
  by_cases hk : k = r.reviewerLogin
  · subst hk
    exact mapGet_processReview_self_congr (h _)
  · rw [mapGet_processReview_ne m1 hk, mapGet_processReview_ne m2 hk]
    exact h k

theorem mapGet_foldl_congr {isMember : String → Bool} {prLogin : String}
    (L : List Review) :
    ∀ m1 m2 : List (String × String), (∀ k, mapGet m1 k = mapGet m2 k) →
      ∀ k, mapGet (L.foldl (processReview isMember prLogin) m1) k =
           mapGet (L.foldl (processReview isMember prLogin) m2) k := by
  induction L with
  | nil =>
    intro m1 m2 h k
    exact h k
  | cons r rest ih =>
    intro m1 m2 h k
    rw [List.foldl_cons, List.foldl_cons]
    exact ih _ _ (fun k2 => mapGet_processReview_congr h r k2) k

theorem processReview_comm_pointwise {isMember : String → Bool} {prLogin : String}
    {a b : Review} (hrev : ¬ a.reviewerLogin = b.reviewerLogin)
    (m : List (String × String)) (k : String) :
    mapGet (processReview isMember prLogin (processReview isMember prLogin m a) b) k =
      mapGet (processReview isMember prLogin (processReview isMember prLogin m b) a) k := by
  have hrev2 : ¬ b.reviewerLogin = a.reviewerLogin := fun hh => hrev hh.symm
  by_cases hka : k = a.reviewerLogin
  · subst hka
    have hmb : mapGet (processReview isMember prLogin m b) a.reviewerLogin =
        mapGet m a.reviewerLogin := mapGet_processReview_ne m hrev
    calc mapGet (processReview isMember prLogin
            (processReview isMember prLogin m a) b) a.reviewerLogin
        = mapGet (processReview isMember prLogin m a) a.reviewerLogin :=
          mapGet_processReview_ne _ hrev
      _ = mapGet (processReview isMember prLogin
            (processReview isMember prLogin m b) a) a.reviewerLogin :=
          mapGet_processReview_self_congr hmb.symm
  · by_cases hkb : k = b.reviewerLogin
    · subst hkb
      have hma : mapGet (processReview isMember prLogin m a) b.reviewerLogin =
          mapGet m b.reviewerLogin := mapGet_processReview_ne m hrev2
      calc mapGet (processReview isMember prLogin
              (processReview isMember prLogin m a) b) b.reviewerLogin
          = mapGet (processReview isMember prLogin m b) b.reviewerLogin :=
            mapGet_processReview_self_congr hma
        _ = mapGet (processReview isMember prLogin
              (processReview isMember prLogin m b) a) b.reviewerLogin :=
            (mapGet_processReview_ne _ hrev2).symm
    · rw [mapGet_processReview_ne (processReview isMember prLogin m a) hkb,
          mapGet_processReview_ne m hka,
          mapGet_processReview_ne (processReview isMember prLogin m b) hka,
          mapGet_processReview_ne m hkb]

theorem processReview_keys_nodup {isMember : String → Bool} {prLogin : String}
    {m : List (String × String)} (h : (mapKeys m).Nodup) (r : Review) :
    (mapKeys (processReview isMember prLogin m r)).Nodup := by
  rcases processReview_keys_cases isMember prLogin m r with hc | ⟨hc, _, _, hnot⟩
  · rw [hc]; exact h
  · rw [hc]
    refine List.Nodup.append h (List.nodup_singleton _) ?_
    intro x hx1 hx2
    rw [List.mem_singleton] at hx2
    subst hx2
    exact hnot hx1

theorem count_eq_of_pointwise {m1 m2 : List (String × String)}
    (h1 : (mapKeys m1).Nodup) (h2 : (mapKeys m2).Nodup)
    (h : ∀ k, mapGet m1 k = mapGet m2 k) :
    ((m1.map Prod.snd).filter (fun s => s == APPROVED)).length =
      ((m2.map Prod.snd).filter (fun s => s == APPROVED)).length := by
  have hperm : List.Perm m1 m2 := by
    refine (List.perm_ext_iff_of_nodup
      (List.Nodup.of_map Prod.fst h1) (List.Nodup.of_map Prod.fst h2)).mpr ?_
    intro p
    obtain ⟨k, v⟩ := p
    rw [mem_iff_mapGet h1, mem_iff_mapGet h2, h k]
  exact ((hperm.map Prod.snd).filter _).length_eq

/-! Stable-sort behaviour of adjacent same-timestamp events. -/

theorem insertReview_cons_le {r x : Review} (xs : List Review)
    (h : r.submittedAt ≤ x.submittedAt) :
    insertReview r (x :: xs) = r :: x :: xs := by
  rw [insertReview, if_pos h]

theorem insertReview_cons_gt {r x : Review} (xs : List Review)
    (h : ¬ r.submittedAt ≤ x.submittedAt) :
    insertReview r (x :: xs) = x :: insertReview r xs := by
  rw [insertReview, if_neg h]

theorem insertReview_insertReview_swap {a b : Review}
    (hkey : a.submittedAt = b.submittedAt) (L : List Review) :
    ∃ P Q, insertReview a (insertReview b L) = P ++ a :: b :: Q ∧
           insertReview b (insertReview a L) = P ++ b :: a :: Q := by
  have hab : a.submittedAt ≤ b.submittedAt := Nat.le_of_eq hkey
  have hba : b.submittedAt ≤ a.submittedAt := Nat.le_of_eq hkey.symm
  induction L with
  | nil =>
    refine ⟨[], [], ?_, ?_⟩
    · show insertReview a [b] = [] ++ a :: b :: []
      rw [insertReview_cons_le [] hab]
      rfl
    · show insertReview b [a] = [] ++ b :: a :: []
      rw [insertReview_cons_le [] hba]
      rfl
  | cons x xs ih =>
    by_cases hc : a.submittedAt ≤ x.submittedAt
    · have hc2 : b.submittedAt ≤ x.submittedAt := by rw [← hkey]; exact hc
      refine ⟨[], x :: xs, ?_, ?_⟩
      · rw [insertReview_cons_le xs hc2, insertReview_cons_le (x :: xs) hab]
        rfl
      · rw [insertReview_cons_le xs hc, insertReview_cons_le (x :: xs) hba]
        rfl
    · have hc2 : ¬ b.submittedAt ≤ x.submittedAt := by rw [← hkey]; exact hc
      obtain ⟨P, Q, hP1, hP2⟩ := ih
      refine ⟨x :: P, Q, ?_, ?_⟩
      · rw [insertReview_cons_gt xs hc2, insertReview_cons_gt _ hc, hP1]
        rfl
      · rw [insertReview_cons_gt xs hc, insertReview_cons_gt _ hc2, hP2]
        rfl

theorem insertReview_middle_swap {a b : Review}
    (hkey : a.submittedAt = b.submittedAt) (c : Review) :
    ∀ P Q : List Review, ∃ P2 Q2,
      insertReview c (P ++ a :: b :: Q) = P2 ++ a :: b :: Q2 ∧
      insertReview c (P ++ b :: a :: Q) = P2 ++ b :: a :: Q2 := by
  intro P
  induction P with
  | nil =>
    intro Q
    by_cases hc : c.submittedAt ≤ a.submittedAt
    · have hc2 : c.submittedAt ≤ b.submittedAt := by rw [← hkey]; exact hc
      refine ⟨[c], Q, ?_, ?_⟩
      · rw [List.nil_append, insertReview_cons_le _ hc]
        rfl
      · rw [List.nil_append, insertReview_cons_le _ hc2]
        rfl
    · have hc2 : ¬ c.submittedAt ≤ b.submittedAt := by rw [← hkey]; exact hc
      refine ⟨[], insertReview c Q, ?_, ?_⟩
      · rw [List.nil_append, insertReview_cons_gt _ hc, insertReview_cons_gt _ hc2]
        rfl
      · rw [List.nil_append, insertReview_cons_gt _ hc2, insertReview_cons_gt _ hc]
        rfl
  | cons x P ih =>
    intro Q
    by_cases hc : c.submittedAt ≤ x.submittedAt
    · refine ⟨c :: x :: P, Q, ?_, ?_⟩
      · rw [List.cons_append, insertReview_cons_le _ hc]
        rfl
      · rw [List.cons_append, insertReview_cons_le _ hc]
        rfl
    · obtain ⟨P2, Q2, h1, h2⟩ := ih Q
      refine ⟨x :: P2, Q2, ?_, ?_⟩
      · rw [List.cons_append, insertReview_cons_gt _ hc, h1]
        rfl
      · rw [List.cons_append, insertReview_cons_gt _ hc, h2]
        rfl

theorem sortReviews_swap {a b : Review}
    (hkey : a.submittedAt = b.submittedAt) (l1 l2 : List Review) :
    ∃ P Q, sortReviews (l1 ++ a :: b :: l2) = P ++ a :: b :: Q ∧
           sortReviews (l1 ++ b :: a :: l2) = P ++ b :: a :: Q := by
  induction l1 with
  | nil =>
    obtain ⟨P, Q, h1, h2⟩ := insertReview_insertReview_swap hkey (sortReviews l2)
    refine ⟨P, Q, ?_, ?_⟩
    · simpa [sortReviews] using h1
    · simpa [sortReviews] using h2
  | cons c l1 ih =>
    obtain ⟨P, Q, h1, h2⟩ := ih
    obtain ⟨P2, Q2, g1, g2⟩ := insertReview_middle_swap hkey c P Q
    refine ⟨P2, Q2, ?_, ?_⟩
    · rw [List.cons_append, sortReviews, h1, g1]
    · rw [List.cons_append, sortReviews, h2, g2]

/-- C7.  approvedCount is invariant under swapping two adjacent input
events that carry the same submittedAt timestamp but belong to different
reviewers (such adjacent transpositions generate every re-ordering that
only permutes same-timestamp events of different reviewers): the stable
sort keeps the pair adjacent in the same block, the reconciliation steps
of distinct reviewers commute on the lookup function of the map, and the
final count only depends on that lookup function. -/
theorem C7_same_timestamp_swap (isMember : String → Bool) (prLogin : String)
    (l1 l2 : List Review) (a b : Review)
    (hkey : a.submittedAt = b.submittedAt)
    (hrev : ¬ a.reviewerLogin = b.reviewerLogin) :
    approvedCount isMember (l1 ++ a :: b :: l2) prLogin =
      approvedCount isMember (l1 ++ b :: a :: l2) prLogin := by
  obtain ⟨P, Q, h1, h2⟩ := sortReviews_swap hkey l1 l2
  unfold approvedCount reviewStateMap
  rw [h1, h2, List.foldl_append, List.foldl_append, List.foldl_cons, List.foldl_cons,
      List.foldl_cons, List.foldl_cons]
  have hnd0 : (mapKeys (List.foldl (processReview isMember prLogin) [] P)).Nodup :=
    (foldl_processReview_keys isMember prLogin P [] (by simp [mapKeys])).1
  apply count_eq_of_pointwise
  · exact (foldl_processReview_keys isMember prLogin Q _
      (processReview_keys_nodup (processReview_keys_nodup hnd0 a) b)).1
  · exact (foldl_processReview_keys isMember prLogin Q _
      (processReview_keys_nodup (processReview_keys_nodup hnd0 b) a)).1
  · exact mapGet_foldl_congr Q _ _
      (fun k2 => processReview_comm_pointwise hrev _ k2)

/-- Witness for C7: two same-timestamp events of different reviewers,
swapped. -/
theorem C7_same_timestamp_swap_witness :
    (Review.mk "alice" "approved" 5).submittedAt
      = (Review.mk "bob" "commented" 5).submittedAt ∧
    (¬ (Review.mk "alice" "approved" 5).reviewerLogin
      = (Review.mk "bob" "commented" 5).reviewerLogin) ∧
    approvedCount memberAll
        [Review.mk "alice" "approved" 5, Review.mk "bob" "commented" 5] "author" =
      approvedCount memberAll
        [Review.mk "bob" "commented" 5, Review.mk "alice" "approved" 5] "author" :=
  ⟨rfl, by decide,
    C7_same_timestamp_swap memberAll "author" [] []
      (Review.mk "alice" "approved" 5) (Review.mk "bob" "commented" 5) rfl (by decide)⟩

end MultiApprovers
